import Mathlib

/-!
Verification development for the compression-cost-optimization planner
(mixing_policy.rs, convex_hull.rs, algorithms.rs).

The Rust code is embedded shallowly:
  durations (std::time::Duration values, compared exactly and converted with
  as_secs_f64 for arithmetic) are modelled as rationals, compressed sizes
  (u64) as naturals with explicit wrapping where the code subtracts,
  and the f64 computations (benefits, fractions, the angle sort of the
  Graham scan) are modelled with exact rational arithmetic.  The atan2-based
  angular comparison of convex_hull.rs is modelled by an exact comparison of
  polar angles (quadrant classification plus cross products), and the
  hypot-based distance tie-break by comparison of squared distances.
-/

/-- Embeds algorithms.rs AlgorithmMetrics: a compressed size (u64) and the
time required (Duration, modelled as an exact rational number of seconds). -/
structure AlgorithmMetrics where
  time_required : ℚ
  compressed_size : ℕ
deriving DecidableEq, Repr

instance : Inhabited AlgorithmMetrics := ⟨⟨0, 0⟩⟩

/-- Three-way comparison of rationals, modelling f64/Duration partial_cmp on
values that are never NaN. -/
def qcmp (a b : ℚ) : Ordering :=
  if a < b then Ordering.lt else if a = b then Ordering.eq else Ordering.gt

/-- Three-way comparison of naturals, modelling u64 cmp. -/
def ncmp (a b : ℕ) : Ordering :=
  if a < b then Ordering.lt else if a = b then Ordering.eq else Ordering.gt

/-- Embeds the Ord impl of AlgorithmMetrics: primary ascending time_required,
ties broken by inverse compressed_size (the larger size sorts earlier). -/
def metricsCmp (a b : AlgorithmMetrics) : Ordering :=
  if a.time_required = b.time_required then ncmp b.compressed_size a.compressed_size
  else qcmp a.time_required b.time_required

/-- The non-strict order corresponding to metricsCmp, used to run the stable
sort from Rust Vec::sort. -/
def metricLe (a b : AlgorithmMetrics) : Prop :=
  a.time_required < b.time_required ∨
    (a.time_required = b.time_required ∧ b.compressed_size ≤ a.compressed_size)

instance : DecidableRel metricLe := fun a b => by
  unfold metricLe
  exact inferInstance

/-- Embeds algorithm_metrics.sort() in build_polygonal_chain: Vec::sort is a
stable sort by the Ord impl above, modelled by a stable insertion sort. -/
def sortMetrics (l : List AlgorithmMetrics) : List AlgorithmMetrics :=
  List.insertionSort metricLe l

/-- The x coordinate of a metric as a convex_hull.rs Point (time in seconds). -/
def px (m : AlgorithmMetrics) : ℚ := m.time_required

/-- The y coordinate of a metric as a convex_hull.rs Point (compressed size). -/
def py (m : AlgorithmMetrics) : ℚ := (m.compressed_size : ℚ)

/-- Embeds calc_z_coord_vector_product of convex_hull.rs. -/
def crossZ (a b c : AlgorithmMetrics) : ℚ :=
  (px b - px a) * (py c - py a) - (px c - px a) * (py b - py a)

/-- Classifies the polar angle atan2(v.2, v.1) of a vector into the four
ranges (-pi,0), {0}, (0,pi), {pi}, numbered in increasing order of angle.
The zero vector gets angle 0, matching f64 atan2(0,0) = 0. -/
def angleClass (v : ℚ × ℚ) : ℕ :=
  if v.2 < 0 then 0 else if v.2 = 0 ∧ 0 ≤ v.1 then 1 else if 0 < v.2 then 2 else 3

/-- Exact comparison of the polar angles atan2(u.2,u.1) and atan2(v.2,v.1):
first by range, then (within an open half-plane) by the sign of the cross
product, which decides the angular order exactly. -/
def angleCmp (u v : ℚ × ℚ) : Ordering :=
  let cu := angleClass u
  let cv := angleClass v
  if cu < cv then Ordering.lt
  else if cv < cu then Ordering.gt
  else
    let cr := u.1 * v.2 - v.1 * u.2
    if 0 < cr then Ordering.lt else if cr < 0 then Ordering.gt else Ordering.eq

/-- Squared euclidean norm; comparing it is exactly comparing the hypot
distances used as tie-break in sort_by_min_angle. -/
def distSq (v : ℚ × ℚ) : ℚ := v.1 * v.1 + v.2 * v.2

/-- The vector from the pivot to a point, as built in sort_by_min_angle. -/
def vecFrom (minp p : AlgorithmMetrics) : ℚ × ℚ := (px p - px minp, py p - py minp)

/-- Embeds the comparison of the (angle, distance, point) triples that
sort_by_min_angle sorts by (tuple PartialOrd, lexicographic). -/
def angleKeyCmp (minp p q : AlgorithmMetrics) : Ordering :=
  (angleCmp (vecFrom minp p) (vecFrom minp q)).then
    ((qcmp (distSq (vecFrom minp p)) (distSq (vecFrom minp q))).then (metricsCmp p q))

/-- Embeds sort_by_min_angle of convex_hull.rs (a stable sort by the triple
comparison above; the pivot itself participates with the zero vector). -/
def sortByMinAngle (pts : List AlgorithmMetrics) (minp : AlgorithmMetrics) :
    List AlgorithmMetrics :=
  List.insertionSort (fun p q => angleKeyCmp minp p q ≠ Ordering.gt) pts

/-- Embeds the pivot comparison of convex_hull_graham: smallest y, ties by
smallest x. -/
def pivotCmp (a b : AlgorithmMetrics) : Ordering :=
  (qcmp (py a) (py b)).then (qcmp (px a) (px b))

/-- Embeds Rust Iterator::min_by: the first minimal element wins ties. -/
def minByFirst (cmp : α → α → Ordering) (l : List α) : Option α :=
  l.foldl (fun acc x =>
    match acc with
    | none => some x
    | some a => if cmp x a = Ordering.lt then some x else some a) none

/-- Embeds Rust Iterator::max_by: the last maximal element wins ties. -/
def maxByLast (cmp : α → α → Ordering) (l : List α) : Option α :=
  l.foldl (fun acc x =>
    match acc with
    | none => some x
    | some a => if cmp x a = Ordering.lt then some a else some x) none

/-- One candidate of the Graham scan loop: pop while the stack has at least
two points and the turn (second-top, top, candidate) is a strict right turn
(cross product strictly negative), then push.  The stack is held top-first. -/
def scanStep (stack : List AlgorithmMetrics) (point : AlgorithmMetrics) :
    List AlgorithmMetrics :=
  match stack with
  | b :: a :: rest =>
    if crossZ a b point < 0 then scanStep (a :: rest) point else point :: b :: a :: rest
  | _ => point :: stack

/-- Embeds convex_hull_graham of convex_hull.rs: empty input gives an empty
hull; with at most three points the angle-sorted sequence is returned as is;
otherwise the scan runs and the stack is returned bottom-first. -/
def convexHullGraham (pts : List AlgorithmMetrics) : List AlgorithmMetrics :=
  match minByFirst pivotCmp pts with
  | none => []
  | some minp =>
    let points := sortByMinAngle pts minp
    if points.length ≤ 3 then points
    else (points.foldl scanStep []).reverse

/-- Comparison by time_required only, as used for the min/max extraction in
build_polygonal_chain. -/
def timeCmp (a b : AlgorithmMetrics) : Ordering := qcmp a.time_required b.time_required

/-- Embeds the cycle-based arc extraction of build_polygonal_chain: walk the
ring, start collecting at the first element equal to the min-x hull point,
stop right after the first subsequent element equal to the max-x hull point.
The Rust code cycles the ring indefinitely; since the max-x point occurs in
the ring, two copies of the ring are enough to reach it. -/
def arcFrom (minp maxp : AlgorithmMetrics) :
    List AlgorithmMetrics → Bool → List AlgorithmMetrics → List AlgorithmMetrics
  | [], _, acc => acc.reverse
  | el :: rest, false, acc =>
    if el = minp then arcFrom minp maxp rest true (el :: acc)
    else arcFrom minp maxp rest false acc
  | el :: rest, true, acc =>
    if el = maxp then (el :: acc).reverse else arcFrom minp maxp rest true (el :: acc)

/-- The lower polygonal chain of the Graham hull: the arc from the point of
minimal time_required (first minimal) to the point of maximal time_required
(last maximal), following build_polygonal_chain. -/
def lowerConvexHull (chain : List AlgorithmMetrics) : List AlgorithmMetrics :=
  let hull := convexHullGraham chain
  match minByFirst timeCmp hull, maxByLast timeCmp hull with
  | some minp, some maxp => arcFrom minp maxp (hull ++ hull) false []
  | _, _ => []

/-- Wrapping u64 subtraction, modelling release-mode Rust.  Debug builds
panic when b > a; where that matters it is recorded next to the theorem. -/
def u64sub (a b : ℕ) : ℕ := (a + 2 ^ 64 - b) % 2 ^ 64

/-- Embeds slice::windows(2) as the list of adjacent pairs. -/
def windows2 (l : List α) : List (α × α) :=
  match l with
  | a :: b :: rest => (a, b) :: windows2 (b :: rest)
  | _ => []

/-- Embeds slice::windows(3) as the list of adjacent triples. -/
def windows3 (l : List α) : List (α × α × α) :=
  match l with
  | a :: b :: c :: rest => (a, b, c) :: windows3 (b :: c :: rest)
  | _ => []

/-- Embeds the benefit annotation at the end of build_polygonal_chain: the
first hull point gets benefit 0, every other point gets
(prev.compressed_size - curr.compressed_size) as f64 divided by the duration
difference in seconds.  The size subtraction is the wrapping u64 model. -/
def annotateBenefits (lch : List AlgorithmMetrics) : List (AlgorithmMetrics × ℚ) :=
  match lch with
  | [] => []
  | first :: _ =>
    (first, 0) :: (windows2 lch).map (fun pair =>
      (pair.2, ((u64sub pair.1.compressed_size pair.2.compressed_size : ℕ) : ℚ) /
        (pair.2.time_required - pair.1.time_required)))

/-- The first stage of the pre-hull filter: the first sorted measurement is
always kept (algorithm_metrics.first()). -/
def firstKept (ms : List AlgorithmMetrics) : List AlgorithmMetrics :=
  match ms with
  | [] => []
  | first :: _ => [first]

/-- The windows(3) stage of the pre-hull filter of build_polygonal_chain:
the middle point of each window survives unless its size is not better than
the first point of the window, or its duration equals that of the third. -/
def middleKept (ms : List AlgorithmMetrics) : List AlgorithmMetrics :=
  ((windows3 ms).filter (fun w =>
    decide (¬(w.2.1.compressed_size ≥ w.1.compressed_size ∨
      w.2.1.time_required = w.2.2.time_required)))).map (fun w => w.2.1)

/-- The windows(2).last() stage of the pre-hull filter: the last sorted
measurement is kept only when its compression is strictly better than its
predecessor. -/
def lastKept (ms : List AlgorithmMetrics) : List AlgorithmMetrics :=
  match (windows2 ms).getLast? with
  | some pair =>
    if ¬(pair.2.compressed_size ≥ pair.1.compressed_size) then [pair.2] else []
  | none => []

/-- The polygonal chain handed to convex_hull_graham: first point, then the
surviving middle points, then the (possibly kept) last point. -/
def preHullChain (ms : List AlgorithmMetrics) : List AlgorithmMetrics :=
  firstKept ms ++ middleKept ms ++ lastKept ms

/-- Embeds MixingPolicy::build_polygonal_chain end to end: sort, pre-hull
filter, Graham hull, lower-arc extraction, benefit annotation.  The Rust
function panics on an empty input; the model returns the empty list there. -/
def buildPolygonalChain (metrics : List AlgorithmMetrics) :
    List (AlgorithmMetrics × ℚ) :=
  annotateBenefits (lowerConvexHull (preHullChain (sortMetrics metrics)))

/-- Embeds the OptimalMix enum of mixing_policy.rs.  Normal stores the
(expensive, cheap) pair in that order, as the Rust tuple does. -/
inductive OptimalMix where
  | Single (m : AlgorithmMetrics)
  | Normal (expensive cheap : AlgorithmMetrics) (fraction : ℚ)
deriving DecidableEq, Repr

/-- Embeds f64::round: round half away from zero. -/
def roundAway (x : ℚ) : ℤ := if 0 ≤ x then ⌊x + 1 / 2⌋ else ⌈x - 1 / 2⌉

/-- Embeds the snapping of a fraction to hundredths:
(fraction * 100).round() / 100. -/
def frac100 (x : ℚ) : ℚ := ((roundAway (x * 100) : ℤ) : ℚ) / 100

/-- The window condition of MixingPolicy::optimal_mix: the budget lies
between the times of the two adjacent hull points (both ends inclusive). -/
def mixCond (budget : ℚ) (g : (AlgorithmMetrics × ℚ) × (AlgorithmMetrics × ℚ)) : Bool :=
  decide (g.1.1.time_required ≤ budget ∧ budget ≤ g.2.1.time_required)

/-- Embeds MixingPolicy::optimal_mix: find the first window of the hull
containing the budget and build a Normal mix from it, otherwise fall back to
a Single mix of the last hull point when its time is strictly below the
budget, otherwise report infeasibility.  The Rust code unwraps the last hull
point and panics on an empty hull; the model returns none there. -/
def optimalMix (lch : List (AlgorithmMetrics × ℚ)) (budget : ℚ) : Option OptimalMix :=
  match (windows2 lch).find? (mixCond budget) with
  | some g =>
    some (OptimalMix.Normal g.2.1 g.1.1
      (frac100 ((budget - g.1.1.time_required) /
        (g.2.1.time_required - g.1.1.time_required))))
  | none =>
    match lch.getLast? with
    | some lastp =>
      if lastp.1.time_required < budget then some (OptimalMix.Single lastp.1) else none
    | none => none

/-- Embeds MixingPolicy::apply_optimal_mix together with the
execute_with_target implementations of the byte codecs (gzip.rs): a Single
mix compresses the whole input; a Normal mix computes the partition index
round(len * fraction), runs metric_a (the expensive configuration) with
first_half = true over bytes [0, partition), then metric_b (the cheap one)
with first_half = false over bytes [partition, len).  The result lists each
executed configuration with the half-open byte range it compresses. -/
def applyOptimalMix (mix : OptimalMix) (len : ℕ) : List (AlgorithmMetrics × ℕ × ℕ) :=
  match mix with
  | OptimalMix.Single m => [(m, 0, len)]
  | OptimalMix.Normal a b fraction =>
    let part := (roundAway ((len : ℚ) * fraction)).toNat
    [(a, 0, part), (b, part, len)]

/-- The total compressed size of a plan, with the usual linear interpolation
for split plans: the expensive configuration compresses the fraction of the
bytes given to it, the cheap one the rest. -/
def mixCompressedSize : OptimalMix → ℚ
  | OptimalMix.Single m => (m.compressed_size : ℚ)
  | OptimalMix.Normal a b fraction =>
    fraction * (a.compressed_size : ℚ) + (1 - fraction) * (b.compressed_size : ℚ)

/-- Aggregate duration of a joint configuration (sum of per-document
time_required), as folded in MixingPolicyMultipleWorkloads. -/
def aggregateTime (combo : List (AlgorithmMetrics × ℚ)) : ℚ :=
  combo.foldl (fun acc s => acc + s.1.time_required) 0

/-- Aggregate size of a joint configuration (sum of per-document
compressed_size). -/
def aggregateSize (combo : List (AlgorithmMetrics × ℚ)) : ℕ :=
  combo.foldl (fun acc s => acc + s.1.compressed_size) 0

/-- The benefit at the front of a per-document queue (lch[0].1). -/
def frontBenefit (q : List (AlgorithmMetrics × ℚ)) : ℚ :=
  match q with
  | [] => 0
  | s :: _ => s.2

/-- Embeds the selection of the workload to advance: among the non-empty
queues, max_by on the front benefit; Rust max_by returns the last maximal
element on ties. -/
def pickWorkload (queues : List (List (AlgorithmMetrics × ℚ))) :
    Option (ℕ × List (AlgorithmMetrics × ℚ)) :=
  (queues.enum.filter (fun p => !p.2.isEmpty)).foldl (fun acc x =>
    match acc with
    | none => some x
    | some a => if frontBenefit x.2 < frontBenefit a.2 then some a else some x) none

/-- Embeds the while loop of MixingPolicyMultipleWorkloads::new.  Each
iteration advances exactly one workload by one hull step and appends the new
joint configuration with its benefit
(previous_complessive_size - combination_size) / (combination_time -
previous_complessive_time), where the size subtraction is wrapping u64
(debug builds panic when it underflows, which happens on the very first
iteration because previous_complessive_size starts at 0).  The fuel argument
is the total number of queued setups, which is exactly the number of
iterations the Rust loop performs (each iteration removes one setup). -/
def mergeStep : ℕ → List (List (AlgorithmMetrics × ℚ)) → List (AlgorithmMetrics × ℚ) →
    ℕ → ℚ → List (List (AlgorithmMetrics × ℚ) × ℚ)
  | 0, _, _, _, _ => []
  | Nat.succ fuel, queues, current, prevSize, prevTime =>
    if queues.all List.isEmpty then []
    else
      match pickWorkload queues with
      | none => []
      | some (index, q) =>
        match q with
        | [] => []
        | setup :: qrest =>
          let current2 := current.set index setup
          let t := aggregateTime current2
          let s := aggregateSize current2
          (current2, ((u64sub prevSize s : ℕ) : ℚ) / (t - prevTime)) ::
            mergeStep fuel (queues.set index qrest) current2 s t

/-- Embeds MixingPolicyMultipleWorkloads::new: build every per-document
hull, start from the joint configuration of first hull points (recorded with
benefit 0), then run the benefit-greedy merge.  The label strings attached
to combinations carry no planning information and are omitted. -/
def jointPlanOf (workloads : List (List AlgorithmMetrics)) :
    List (List (AlgorithmMetrics × ℚ) × ℚ) :=
  let lchs := workloads.map buildPolygonalChain
  let current := lchs.map (fun l => l.headD default)
  let queues := lchs.map (List.drop 1)
  (current, 0) :: mergeStep (queues.foldl (fun acc q => acc + q.length) 0) queues current 0 0

/-- The window condition of mix_with_total_time_budget: at least the
previous aggregate duration and strictly below the next one. -/
def comboCond (budget : ℚ)
    (g : (List (AlgorithmMetrics × ℚ) × ℚ) × (List (AlgorithmMetrics × ℚ) × ℚ)) : Bool :=
  decide (aggregateTime g.1.1 ≤ budget ∧ budget < aggregateTime g.2.1)

/-- Embeds MixingPolicyMultipleWorkloads::mix_with_total_time_budget: find
the first adjacent pair of joint configurations bracketing the budget and
zip the two combinations into per-document mixes (Single where the slot did
not move, otherwise Normal with the fraction from the aggregate times);
fall back to Singles of the last joint configuration only when its aggregate
duration is strictly below the budget; otherwise report infeasibility. -/
def mixWithTotalTimeBudget (plan : List (List (AlgorithmMetrics × ℚ) × ℚ))
    (budget : ℚ) : Option (List OptimalMix) :=
  match (windows2 plan).find? (comboCond budget) with
  | some g =>
    let cheapTime := aggregateTime g.1.1
    let expTime := aggregateTime g.2.1
    some ((g.1.1.zip g.2.1).map (fun p =>
      if p.1 = p.2 then OptimalMix.Single p.1.1
      else OptimalMix.Normal p.2.1 p.1.1 (frac100 ((budget - cheapTime) / (expTime - cheapTime)))))
  | none =>
    match plan.getLast? with
    | some lastc =>
      if aggregateTime lastc.1 < budget then
        some (lastc.1.map (fun m => OptimalMix.Single m.1))
      else none
    | none => none

/-- The reference measurement set of the paper scenario (times in seconds,
sizes in bytes), as in the paper_polygonal_chain test. -/
def refMetrics : List AlgorithmMetrics :=
  [⟨2, 1000000⟩, ⟨4, 800000⟩, ⟨6, 600000⟩, ⟨7, 580000⟩, ⟨8, 400000⟩, ⟨10, 300000⟩]

/-- The annotated lower convex hull built from the reference measurements. -/
def refLCH : List (AlgorithmMetrics × ℚ) := buildPolygonalChain refMetrics

/-- A duration-sorted measurement set with one noisy point: the slower
configuration at 4s compresses worse than the one at 2s. -/
def noisyMetrics : List AlgorithmMetrics := [⟨1, 10⟩, ⟨2, 5⟩, ⟨3, 7⟩, ⟨4, 6⟩]

/-- Modelled from the spec (pre-hull filtering, middle rule): for every
window of three consecutive duration-sorted measurements (a, b, c), b is
kept exactly when neither its size is ≥ the size of a nor its duration
equals the duration of c.  Windows are rendered by zipping the sequence
with its two tails. -/
def keptMiddles (ms : List AlgorithmMetrics) : List AlgorithmMetrics :=
  ((ms.zip ((ms.drop 1).zip (ms.drop 2))).filter (fun w =>
    decide (¬(w.2.1.compressed_size ≥ w.1.compressed_size ∨
      w.2.1.time_required = w.2.2.time_required)))).map (fun w => w.2.1)

/-- Modelled from the spec (pre-hull filtering, final rule): the final
measurement is kept exactly when its size is strictly less than the size of
its predecessor. -/
def keptFinal (ms : List AlgorithmMetrics) : List AlgorithmMetrics :=
  match ms.dropLast.getLast?, ms.getLast? with
  | some p, some lastm =>
    if lastm.compressed_size < p.compressed_size then [lastm] else []
  | _, _ => []

/-! Helper lemmas about the embedded list combinators.  The rational
arithmetic operations are made semireducible so that concrete runs of the
embedded code can be evaluated by decide. -/

attribute [local semireducible] Rat.add Rat.sub Rat.mul Rat.inv

set_option maxRecDepth 2000

theorem windows3_eq_zip : ∀ (l : List α),
    windows3 l = l.zip ((l.drop 1).zip (l.drop 2))
  | [] => rfl
  | [_] => rfl
  | [_, _] => rfl
  | a :: b :: c :: rest => by
    have ih := windows3_eq_zip (b :: c :: rest)
    simp only [windows3, ih, List.drop, List.zip_cons_cons]

theorem windows2_getElem? : ∀ (l : List α) (i : ℕ),
    (windows2 l)[i]? = l[i]?.bind (fun a => (l[i + 1]?).map (fun b => (a, b)))
  | [], i => by simp [windows2]
  | [a], i => by
    cases i <;> simp [windows2]
  | a :: b :: rest, 0 => by simp [windows2]
  | a :: b :: rest, i + 1 => by
    have ih := windows2_getElem? (b :: rest) i
    simpa [windows2] using ih

theorem windows2_getLast?_eq : ∀ (l : List α),
    (windows2 l).getLast? =
      (l.dropLast.getLast?).bind (fun p => l.getLast?.map (fun x => (p, x)))
  | [] => rfl
  | [_] => rfl
  | [a, b] => by simp [windows2]
  | a :: b :: c :: rest => by
    have ih := windows2_getLast?_eq (b :: c :: rest)
    have h1 : (windows2 (a :: b :: c :: rest)).getLast? =
        (windows2 (b :: c :: rest)).getLast? := by
      rw [show windows2 (a :: b :: c :: rest) = (a, b) :: (b, c) :: windows2 (c :: rest)
        from rfl]
      rw [List.getLast?_cons_cons]
      rfl
    rw [h1, ih]
    simp only [List.dropLast_cons₂, List.getLast?_cons_cons]

theorem windows2_mem : ∀ {l : List α} {p : α × α}, p ∈ windows2 l → p.1 ∈ l ∧ p.2 ∈ l := by
  intro l
  induction l with
  | nil => intro p hp; simp [windows2] at hp
  | cons a tl ih =>
    intro p hp
    cases tl with
    | nil => simp [windows2] at hp
    | cons b rest =>
      rw [show windows2 (a :: b :: rest) = (a, b) :: windows2 (b :: rest) from rfl] at hp
      rcases List.mem_cons.mp hp with h | h
      · subst h
        exact ⟨List.mem_cons_self _ _, List.mem_cons_of_mem _ (List.mem_cons_self _ _)⟩
      · have := ih h
        exact ⟨List.mem_cons_of_mem _ this.1, List.mem_cons_of_mem _ this.2⟩

theorem find?_first {p : α → Bool} : ∀ {l : List α} {x : α}, l.find? p = some x →
    ∃ i : ℕ, l[i]? = some x ∧ p x = true ∧
      ∀ j : ℕ, j < i → ∀ y, l[j]? = some y → p y = false := by
  intro l
  induction l with
  | nil => intro x h; simp at h
  | cons a tl ih =>
    intro x h
    by_cases hp : p a
    · rw [List.find?_cons_of_pos _ hp] at h
      injection h with h2
      subst h2
      refine ⟨0, by simp, hp, ?_⟩
      intro j hj y hy
      exact absurd hj (by omega)
    · rw [List.find?_cons_of_neg _ hp] at h
      obtain ⟨i, hget, hpx, hmin⟩ := ih h
      refine ⟨i + 1, by simpa using hget, hpx, ?_⟩
      intro j hj y hy
      cases j with
      | zero =>
        simp only [List.getElem?_cons_zero, Option.some.injEq] at hy
        subst hy
        exact Bool.eq_false_iff.mpr hp
      | succ k =>
        exact hmin k (by omega) y (by simpa using hy)

theorem pairwise_of_getElem? {R : α → α → Prop} {l : List α}
    (hp : List.Pairwise R l) {i j : ℕ} {a b : α}
    (hij : i < j) (ha : l[i]? = some a) (hb : l[j]? = some b) : R a b := by
  obtain ⟨hi, rfl⟩ := List.getElem?_eq_some_iff.mp ha
  obtain ⟨hj, rfl⟩ := List.getElem?_eq_some_iff.mp hb
  exact List.pairwise_iff_getElem.mp hp i j hi hj hij

theorem pairwise_rel_getLast {R : α → α → Prop} (hrefl : ∀ a, R a a) :
    ∀ (l : List α) (hne : l ≠ []), List.Pairwise R l →
      ∀ x ∈ l, R x (l.getLast hne) := by
  intro l
  induction l with
  | nil => intro hne; exact absurd rfl hne
  | cons a tl ih =>
    intro hne hp x hx
    cases tl with
    | nil =>
      rcases List.mem_singleton.mp hx with rfl
      exact hrefl _
    | cons b rest =>
      rw [List.getLast_cons_cons]
      rcases List.mem_cons.mp hx with rfl | hx2
      · exact List.rel_of_pairwise_cons hp (List.getLast_mem _)
      · exact ih (by simp) (List.pairwise_cons.mp hp).2 x hx2

theorem pairwise_head_rel {R : α → α → Prop} (hrefl : ∀ a, R a a)
    (l : List α) (hne : l ≠ []) (hp : List.Pairwise R l) :
    ∀ x ∈ l, R (l.head hne) x := by
  cases l with
  | nil => exact absurd rfl hne
  | cons a tl =>
    intro x hx
    rcases List.mem_cons.mp hx with rfl | hx2
    · exact hrefl _
    · exact List.rel_of_pairwise_cons hp hx2

theorem roundAway_mono {x y : ℚ} (h : x ≤ y) : roundAway x ≤ roundAway y := by
  unfold roundAway
  by_cases hx : 0 ≤ x
  · have hy : 0 ≤ y := le_trans hx h
    simp only [hx, hy, if_true]
    exact Int.floor_le_floor (by linarith)
  · by_cases hy : 0 ≤ y
    · simp only [hx, hy, if_true, if_false]
      have h1 : (⌈x - 1 / 2⌉ : ℤ) ≤ 0 := by
        rw [Int.ceil_le]
        push_neg at hx
        push_cast
        linarith
      have h2 : (0 : ℤ) ≤ ⌊y + 1 / 2⌋ := by
        rw [Int.le_floor]
        push_cast
        linarith
      omega
    · simp only [hx, hy, if_false]
      exact Int.ceil_le_ceil (by linarith)

theorem frac100_mono {x y : ℚ} (h : x ≤ y) : frac100 x ≤ frac100 y := by
  unfold frac100
  have := roundAway_mono (mul_le_mul_of_nonneg_right h (by norm_num : (0:ℚ) ≤ 100))
  have hcast : ((roundAway (x * 100) : ℤ) : ℚ) ≤ ((roundAway (y * 100) : ℤ) : ℚ) := by
    exact_mod_cast this
  linarith

theorem frac100_nonneg {x : ℚ} (h : 0 ≤ x) : 0 ≤ frac100 x := by
  unfold frac100 roundAway
  have hx : (0:ℚ) ≤ x * 100 := by positivity
  simp only [hx, if_true]
  have : (0 : ℤ) ≤ ⌊x * 100 + 1 / 2⌋ := by
    rw [Int.le_floor]
    push_cast
    linarith
  positivity

theorem frac100_le_one {x : ℚ} (h : x ≤ 1) : frac100 x ≤ 1 := by
  unfold frac100
  have h1 : roundAway (x * 100) ≤ roundAway 100 := roundAway_mono (by linarith)
  have h2 : roundAway (100 : ℚ) = 100 := by
    unfold roundAway
    rw [if_pos (by norm_num : (0:ℚ) ≤ 100)]
    exact Int.floor_eq_iff.mpr (by norm_num)
  rw [h2] at h1
  rw [div_le_one (by norm_num : (0:ℚ) < 100)]
  exact_mod_cast h1

theorem optimalMix_some_cases (lch : List (AlgorithmMetrics × ℚ)) (b : ℚ) (m : OptimalMix)
    (h : optimalMix lch b = some m) :
    (∃ i : ℕ, ∃ cb eb : AlgorithmMetrics × ℚ,
      lch[i]? = some cb ∧ lch[i + 1]? = some eb ∧
      cb.1.time_required ≤ b ∧ b ≤ eb.1.time_required ∧
      (∀ j : ℕ, j < i → ∀ cb2 eb2 : AlgorithmMetrics × ℚ,
        lch[j]? = some cb2 → lch[j + 1]? = some eb2 →
        ¬(cb2.1.time_required ≤ b ∧ b ≤ eb2.1.time_required)) ∧
      m = OptimalMix.Normal eb.1 cb.1
        (frac100 ((b - cb.1.time_required) / (eb.1.time_required - cb.1.time_required)))) ∨
    (∃ lastp : AlgorithmMetrics × ℚ, lch.getLast? = some lastp ∧
      lastp.1.time_required < b ∧
      (∀ j : ℕ, ∀ cb2 eb2 : AlgorithmMetrics × ℚ,
        lch[j]? = some cb2 → lch[j + 1]? = some eb2 →
        ¬(cb2.1.time_required ≤ b ∧ b ≤ eb2.1.time_required)) ∧
      m = OptimalMix.Single lastp.1) := by
  unfold optimalMix at h
  split at h
  next g hfind =>
    left
    injection h with hm
    obtain ⟨i, hget, hcond, hmin⟩ := find?_first hfind
    rw [windows2_getElem? lch i] at hget
    cases hcb : lch[i]? with
    | none => rw [hcb] at hget; simp at hget
    | some cb =>
      cases heb : lch[i + 1]? with
      | none => rw [hcb, heb] at hget; simp at hget
      | some eb =>
        rw [hcb, heb] at hget
        simp at hget
        subst hget
        have hcond2 := of_decide_eq_true hcond
        refine ⟨i, cb, eb, hcb, heb, hcond2.1, hcond2.2, ?_, hm.symm⟩
        intro j hj cb2 eb2 hcb2 heb2 hc
        have hw : (windows2 lch)[j]? = some (cb2, eb2) := by
          rw [windows2_getElem? lch j, hcb2, heb2]
          rfl
        have := hmin j hj (cb2, eb2) hw
        rw [show mixCond b (cb2, eb2) = decide (cb2.1.time_required ≤ b ∧
          b ≤ eb2.1.time_required) from rfl] at this
        exact absurd (decide_eq_true hc) (by rw [this]; exact Bool.false_ne_true)
  next hfind =>
    right
    have hnone := List.find?_eq_none.mp hfind
    have hminAll : ∀ j : ℕ, ∀ cb2 eb2 : AlgorithmMetrics × ℚ,
        lch[j]? = some cb2 → lch[j + 1]? = some eb2 →
        ¬(cb2.1.time_required ≤ b ∧ b ≤ eb2.1.time_required) := by
      intro j cb2 eb2 hcb2 heb2 hc
      have hw : (cb2, eb2) ∈ windows2 lch := by
        have hw2 : (windows2 lch)[j]? = some (cb2, eb2) := by
          rw [windows2_getElem? lch j, hcb2, heb2]
          rfl
        obtain ⟨hlt, hg⟩ := List.getElem?_eq_some_iff.mp hw2
        exact hg ▸ List.getElem_mem hlt
      have := hnone _ hw
      rw [show mixCond b (cb2, eb2) = decide (cb2.1.time_required ≤ b ∧
        b ≤ eb2.1.time_required) from rfl] at this
      exact this (decide_eq_true hc)
    split at h
    next lastp hlast =>
      split at h
      next hlt =>
        injection h with hm
        exact ⟨lastp, hlast, hlt, hminAll, hm.symm⟩
      next hlt => exact absurd h (by simp)
    next hlast => exact absurd h (by simp)

theorem refLCH_eval : refLCH =
    [(⟨2, 1000000⟩, 0), (⟨4, 800000⟩, 100000), (⟨6, 600000⟩, 100000),
      (⟨8, 400000⟩, 100000), (⟨10, 300000⟩, 50000)] := by
  decide

/-- Claim C9: for every single-document hull and every budget strictly below
the duration of the fastest hull point, optimal_mix reports infeasibility
(returns none). -/
theorem claim9_infeasible_below_fastest (lch : List (AlgorithmMetrics × ℚ))
    (hne : lch ≠ [])
    (hsort : List.Pairwise
      (fun x y : AlgorithmMetrics × ℚ => x.1.time_required ≤ y.1.time_required) lch)
    (budget : ℚ) (hb : budget < (lch.head hne).1.time_required) :
    optimalMix lch budget = none := by
  have hall : ∀ x ∈ lch, (lch.head hne).1.time_required ≤ x.1.time_required :=
    @pairwise_head_rel (AlgorithmMetrics × ℚ)
      (fun x y => x.1.time_required ≤ y.1.time_required)
      (fun a => le_refl a.1.time_required) lch hne hsort
  have hfind : (windows2 lch).find? (mixCond budget) = none := by
    rw [List.find?_eq_none]
    intro g hg
    have hmem := (windows2_mem hg).1
    have h1 := hall g.1 hmem
    unfold mixCond
    simp only [decide_eq_true_eq]
    intro hc
    linarith [hc.1]
  unfold optimalMix
  rw [hfind]
  cases hlast : lch.getLast? with
  | none => rfl
  | some lastp =>
    have hmem : lastp ∈ lch := by
      rw [List.getLast?_eq_getElem?] at hlast
      obtain ⟨hlt, hg⟩ := List.getElem?_eq_some_iff.mp hlast
      exact hg ▸ List.getElem_mem hlt
    have h2 : ¬ lastp.1.time_required < budget := by
      have := hall lastp hmem
      linarith
    simp [h2]

/-- Witness for claim C9 on scenario E3: the reference hull with budget 1s is
infeasible. -/
theorem claim9_witness : optimalMix refLCH 1 = none := by
  rw [refLCH_eval]
  exact claim9_infeasible_below_fastest _ (by decide) (by decide) 1 (by decide)

/-- Claim C4 counterexample: on the reference hull with budget exactly 10s
(the duration of the last hull point), optimal_mix returns a split plan with
fraction 1.0, not the claimed single plan. -/
theorem claim4_counterexample :
    optimalMix refLCH 10 =
      some (OptimalMix.Normal ⟨10, 300000⟩ ⟨8, 400000⟩ 1) ∧
    optimalMix refLCH 10 ≠ some (OptimalMix.Single ⟨10, 300000⟩) := by
  rw [refLCH_eval]
  constructor
  · decide
  · decide

/-- Claim C4 (amended): for every single-document hull and every budget
strictly greater than the duration of the last (best-compressing) hull
point, optimal_mix returns the single plan with that point; at a budget
exactly equal to that duration it returns a split plan with fraction 1.0
instead. -/
theorem claim4_single_above_last (lch : List (AlgorithmMetrics × ℚ))
    (hne : lch ≠ [])
    (hsort : List.Pairwise
      (fun x y : AlgorithmMetrics × ℚ => x.1.time_required ≤ y.1.time_required) lch)
    (budget : ℚ) (hb : (lch.getLast hne).1.time_required < budget) :
    optimalMix lch budget = some (OptimalMix.Single (lch.getLast hne).1) := by
  have hall : ∀ x ∈ lch, x.1.time_required ≤ (lch.getLast hne).1.time_required :=
    @pairwise_rel_getLast (AlgorithmMetrics × ℚ)
      (fun x y => x.1.time_required ≤ y.1.time_required)
      (fun a => le_refl a.1.time_required) lch hne hsort
  have hfind : (windows2 lch).find? (mixCond budget) = none := by
    rw [List.find?_eq_none]
    intro g hg
    have hmem := (windows2_mem hg).2
    have h1 := hall g.2 hmem
    unfold mixCond
    simp only [decide_eq_true_eq]
    intro hc
    linarith [hc.2]
  unfold optimalMix
  rw [hfind, List.getLast?_eq_getLast lch hne]
  simp [hb]

/-- Witness for claim C4 (amended): the reference hull with budget 11s gives
the single plan at the 10s hull point. -/
theorem claim4_witness :
    optimalMix refLCH 11 = some (OptimalMix.Single ⟨10, 300000⟩) := by
  rw [refLCH_eval]
  exact (claim4_single_above_last _ (by decide) (by decide) 11 (by decide)).trans
    (by decide)

/-- Claim C2 counterexample: on the reference hull with budget 7s (scenario
E1) the split plan pairs the 8s configuration with the 6s configuration at
fraction 0.5, and executing it hands the FIRST half of the bytes to the 8s
(expensive, higher-duration) configuration, not to the cheap one as claimed. -/
theorem claim2_counterexample :
    optimalMix refLCH 7 =
      some (OptimalMix.Normal ⟨8, 400000⟩ ⟨6, 600000⟩ (1 / 2)) ∧
    applyOptimalMix (OptimalMix.Normal ⟨8, 400000⟩ ⟨6, 600000⟩ (1 / 2)) 100 =
      [(⟨8, 400000⟩, 0, 50), (⟨6, 600000⟩, 50, 100)] ∧
    (⟨6, 600000⟩ : AlgorithmMetrics).time_required <
      (⟨8, 400000⟩ : AlgorithmMetrics).time_required := by
  refine ⟨?_, ?_, ?_⟩
  · rw [refLCH_eval]; decide
  · decide
  · decide

/-- Claim C2 (amended): for every split plan produced by the single-document
query, the two configurations are adjacent hull points with the cheap one
strictly faster, and executing the plan applies the EXPENSIVE
(higher-duration) configuration to the first f of the input bytes, bytes
[0, round(len * f)), and the cheap one to the remaining bytes. -/
theorem claim2_split_execution (lch : List (AlgorithmMetrics × ℚ)) (budget : ℚ)
    (hsort : List.Pairwise
      (fun x y : AlgorithmMetrics × ℚ => x.1.time_required < y.1.time_required) lch)
    (e c : AlgorithmMetrics) (f : ℚ) (len : ℕ)
    (h : optimalMix lch budget = some (OptimalMix.Normal e c f)) :
    c.time_required < e.time_required ∧
    (∃ i : ℕ, ∃ cb eb : AlgorithmMetrics × ℚ,
      lch[i]? = some cb ∧ lch[i + 1]? = some eb ∧ cb.1 = c ∧ eb.1 = e) ∧
    applyOptimalMix (OptimalMix.Normal e c f) len =
      [(e, 0, (roundAway ((len : ℚ) * f)).toNat),
        (c, (roundAway ((len : ℚ) * f)).toNat, len)] := by
  rcases optimalMix_some_cases lch budget _ h with
    ⟨i, cb, eb, hcb, heb, _, _, _, hm⟩ | ⟨lastp, _, _, _, hm⟩
  · have he : e = eb.1 := by injection hm
    have hc : c = cb.1 := by
      injection hm with h1 h2
    have hlt : cb.1.time_required < eb.1.time_required :=
      pairwise_of_getElem? hsort (by omega) hcb heb
    subst he
    subst hc
    exact ⟨hlt, ⟨i, cb, eb, hcb, heb, rfl, rfl⟩, rfl⟩
  · exact absurd hm (by simp)

/-- Witness for claim C2 (amended) at scenario E1: reference hull, budget 7s,
an input of 100 bytes. -/
theorem claim2_witness :
    (⟨6, 600000⟩ : AlgorithmMetrics).time_required <
      (⟨8, 400000⟩ : AlgorithmMetrics).time_required ∧
    (∃ i : ℕ, ∃ cb eb : AlgorithmMetrics × ℚ,
      refLCH[i]? = some cb ∧ refLCH[i + 1]? = some eb ∧
      cb.1 = ⟨6, 600000⟩ ∧ eb.1 = ⟨8, 400000⟩) ∧
    applyOptimalMix (OptimalMix.Normal ⟨8, 400000⟩ ⟨6, 600000⟩ (1 / 2)) 100 =
      [(⟨8, 400000⟩, 0, (roundAway ((100 : ℚ) * (1 / 2))).toNat),
        (⟨6, 600000⟩, (roundAway ((100 : ℚ) * (1 / 2))).toNat, 100)] :=
  claim2_split_execution refLCH 7
    (by rw [refLCH_eval]; decide) ⟨8, 400000⟩ ⟨6, 600000⟩ (1 / 2) 100
    (by rw [refLCH_eval]; decide)

theorem interp_bounds {se sc f : ℚ} (hf0 : 0 ≤ f) (hf1 : f ≤ 1) (hs : se ≤ sc) :
    se ≤ f * se + (1 - f) * sc ∧ f * se + (1 - f) * sc ≤ sc := by
  constructor <;> nlinarith

theorem interp_antitone {se sc f g : ℚ} (hfg : f ≤ g) (hs : se ≤ sc) :
    g * se + (1 - g) * sc ≤ f * se + (1 - f) * sc := by
  nlinarith

theorem windowFraction_nonneg {tc te b : ℚ} (ht : tc < te) (hb : tc ≤ b) :
    0 ≤ frac100 ((b - tc) / (te - tc)) :=
  frac100_nonneg (div_nonneg (by linarith) (by linarith))

theorem windowFraction_le_one {tc te b : ℚ} (ht : tc < te) (hb : b ≤ te) :
    frac100 ((b - tc) / (te - tc)) ≤ 1 :=
  frac100_le_one ((div_le_one (by linarith)).mpr (by linarith))

theorem windowFraction_mono {tc te b1 b2 : ℚ} (ht : tc < te) (hb : b1 ≤ b2) :
    frac100 ((b1 - tc) / (te - tc)) ≤ frac100 ((b2 - tc) / (te - tc)) := by
  apply frac100_mono
  rw [div_le_div_iff₀ (by linarith) (by linarith)]
  nlinarith

/-- Claim C8: budget monotonicity of the single-document query.  For every
hull (strictly ascending durations, strictly descending sizes) and every
pair of budgets b1 ≤ b2 for which optimal_mix returns a plan, the plan for
the larger budget has an interpolated total compressed size at most that of
the plan for the smaller budget. -/
theorem claim8_budget_monotone (lch : List (AlgorithmMetrics × ℚ))
    (hst : List.Pairwise
      (fun x y : AlgorithmMetrics × ℚ => x.1.time_required < y.1.time_required) lch)
    (hss : List.Pairwise
      (fun x y : AlgorithmMetrics × ℚ => y.1.compressed_size < x.1.compressed_size) lch)
    (b1 b2 : ℚ) (hb : b1 ≤ b2) (m1 m2 : OptimalMix)
    (h1 : optimalMix lch b1 = some m1) (h2 : optimalMix lch b2 = some m2) :
    mixCompressedSize m2 ≤ mixCompressedSize m1 := by
  have hsizes : ∀ {i j : ℕ} {x y : AlgorithmMetrics × ℚ}, lch[i]? = some x →
      lch[j]? = some y → i ≤ j →
      (y.1.compressed_size : ℚ) ≤ (x.1.compressed_size : ℚ) := by
    intro i j x y hx hy hij
    rcases Nat.eq_or_lt_of_le hij with rfl | hlt
    · rw [hx] at hy
      cases hy
      exact le_refl _
    · exact_mod_cast le_of_lt (pairwise_of_getElem? hss hlt hx hy)
  have htimes : ∀ {i j : ℕ} {x y : AlgorithmMetrics × ℚ}, lch[i]? = some x →
      lch[j]? = some y → i ≤ j →
      x.1.time_required ≤ y.1.time_required := by
    intro i j x y hx hy hij
    rcases Nat.eq_or_lt_of_le hij with rfl | hlt
    · rw [hx] at hy
      cases hy
      exact le_refl _
    · exact le_of_lt (pairwise_of_getElem? hst hlt hx hy)
  rcases optimalMix_some_cases lch b1 m1 h1 with
    ⟨i1, cb1, eb1, hcb1, heb1, hta1, htb1, hmin1, hm1⟩ |
    ⟨last1, hlast1, hlt1, hminall1, hm1⟩
  · rcases optimalMix_some_cases lch b2 m2 h2 with
      ⟨i2, cb2, eb2, hcb2, heb2, hta2, htb2, hmin2, hm2⟩ |
      ⟨last2, hlast2, hlt2, hminall2, hm2⟩
    · -- both split plans
      subst hm1
      subst hm2
      have hd1 : cb1.1.time_required < eb1.1.time_required :=
        pairwise_of_getElem? hst (by omega) hcb1 heb1
      have hd2 : cb2.1.time_required < eb2.1.time_required :=
        pairwise_of_getElem? hst (by omega) hcb2 heb2
      have hii : i1 ≤ i2 := by
        by_contra hcon
        push_neg at hcon
        have hfail := hmin1 i2 hcon cb2 eb2 hcb2 heb2
        rcases not_and_or.mp hfail with hA | hB
        · push_neg at hA
          have := pairwise_of_getElem? hst hcon hcb2 hcb1
          linarith
        · push_neg at hB
          linarith
      simp only [mixCompressedSize]
      rcases Nat.eq_or_lt_of_le hii with heq | hlt'
      · subst heq
        rw [hcb1] at hcb2
        rw [heb1] at heb2
        cases hcb2
        cases heb2
        have hfm : frac100 ((b1 - cb1.1.time_required) /
              (eb1.1.time_required - cb1.1.time_required)) ≤
            frac100 ((b2 - cb1.1.time_required) /
              (eb1.1.time_required - cb1.1.time_required)) :=
          windowFraction_mono hd1 hb
        have hs : (eb1.1.compressed_size : ℚ) ≤ (cb1.1.compressed_size : ℚ) :=
          hsizes hcb1 heb1 (by omega)
        exact interp_antitone hfm hs
      · have hf11 := windowFraction_le_one hd1 htb1
        have hf20 := windowFraction_nonneg hd2 hta2
        have hs1 : (eb1.1.compressed_size : ℚ) ≤ (cb1.1.compressed_size : ℚ) :=
          hsizes hcb1 heb1 (by omega)
        have hs2 : (eb2.1.compressed_size : ℚ) ≤ (cb2.1.compressed_size : ℚ) :=
          hsizes hcb2 heb2 (by omega)
        have hlow := (interp_bounds (windowFraction_nonneg hd1 hta1) hf11 hs1).1
        have hup := (interp_bounds hf20 (windowFraction_le_one hd2 htb2) hs2).2
        have hmid : (cb2.1.compressed_size : ℚ) ≤ (eb1.1.compressed_size : ℚ) :=
          hsizes heb1 hcb2 (by omega)
        linarith
    · -- split plan then single plan
      subst hm1
      subst hm2
      have hd1 : cb1.1.time_required < eb1.1.time_required :=
        pairwise_of_getElem? hst (by omega) hcb1 heb1
      have hlast2' : lch[lch.length - 1]? = some last2 := by
        rw [← List.getLast?_eq_getElem?]
        exact hlast2
      have hib : i1 + 1 < lch.length := (List.getElem?_eq_some_iff.mp heb1).1
      have hs1 : (eb1.1.compressed_size : ℚ) ≤ (cb1.1.compressed_size : ℚ) :=
        hsizes hcb1 heb1 (by omega)
      have hlow := (interp_bounds (windowFraction_nonneg hd1 hta1)
        (windowFraction_le_one hd1 htb1) hs1).1
      have hend : (last2.1.compressed_size : ℚ) ≤ (eb1.1.compressed_size : ℚ) :=
        hsizes heb1 hlast2' (by omega)
      simp only [mixCompressedSize]
      linarith
  · rcases optimalMix_some_cases lch b2 m2 h2 with
      ⟨i2, cb2, eb2, hcb2, heb2, hta2, htb2, hmin2, hm2⟩ |
      ⟨last2, hlast2, hlt2, hminall2, hm2⟩
    · -- single plan then split plan: impossible since b2 would sit below the end
      exfalso
      have hlast1' : lch[lch.length - 1]? = some last1 := by
        rw [← List.getLast?_eq_getElem?]
        exact hlast1
      have hib : i2 + 1 < lch.length := (List.getElem?_eq_some_iff.mp heb2).1
      have hle : eb2.1.time_required ≤ last1.1.time_required :=
        htimes heb2 hlast1' (by omega)
      linarith
    · -- both single plans
      subst hm1
      subst hm2
      rw [hlast1] at hlast2
      cases hlast2
      exact le_refl _

/-- Witness for claim C8 on the reference hull with budgets 7s and 9s: the
9s plan (split between the 8s and 10s configurations, interpolated size
350000) is at most the 7s plan (split between 6s and 8s, interpolated size
500000). -/
theorem claim8_witness :
    mixCompressedSize (OptimalMix.Normal ⟨10, 300000⟩ ⟨8, 400000⟩ (1 / 2)) ≤
      mixCompressedSize (OptimalMix.Normal ⟨8, 400000⟩ ⟨6, 600000⟩ (1 / 2)) :=
  claim8_budget_monotone refLCH
    (by rw [refLCH_eval]; decide) (by rw [refLCH_eval]; decide) 7 9 (by norm_num)
    (OptimalMix.Normal ⟨8, 400000⟩ ⟨6, 600000⟩ (1 / 2))
    (OptimalMix.Normal ⟨10, 300000⟩ ⟨8, 400000⟩ (1 / 2))
    (by rw [refLCH_eval]; decide) (by rw [refLCH_eval]; decide)

/-- Claim C5: on a duration-sorted measurement sequence, the pre-hull filter
keeps the first measurement always, keeps the middle point of each window of
three consecutive measurements exactly when neither its size is ≥ the first
point of the window nor its duration equals that of the third, and keeps the
final measurement exactly when its size is strictly below its predecessor. -/
theorem claim5_prefilter (ms : List AlgorithmMetrics) (hne : ms ≠ [])
    (hsort : List.Pairwise
      (fun a b : AlgorithmMetrics => a.time_required ≤ b.time_required) ms) :
    preHullChain ms = ms.head hne :: (keptMiddles ms ++ keptFinal ms) := by
  unfold preHullChain
  have hfirst : firstKept ms = [ms.head hne] := by
    cases ms with
    | nil => exact absurd rfl hne
    | cons a tl => rfl
  have hmid : middleKept ms = keptMiddles ms := by
    unfold middleKept keptMiddles
    rw [windows3_eq_zip]
  have hlast : lastKept ms = keptFinal ms := by
    unfold lastKept keptFinal
    rw [windows2_getLast?_eq]
    cases hdl : ms.dropLast.getLast? with
    | none => simp
    | some p =>
      cases hl : ms.getLast? with
      | none => simp
      | some lastm =>
        simp [ge_iff_le, Nat.not_le]
  rw [hfirst, hmid, hlast]
  simp

/-- Witness for claim C5 on the reference measurement set. -/
theorem claim5_witness :
    preHullChain refMetrics =
      refMetrics.head (by decide) :: (keptMiddles refMetrics ++ keptFinal refMetrics) :=
  claim5_prefilter refMetrics (by decide) (by decide)

/-- Claim C6: building the hull from the reference measurement set yields
exactly the five points of the paper plot, in ascending duration, with the
(7s, 580000) point excluded. -/
theorem claim6_reference_hull :
    (buildPolygonalChain refMetrics).map
      (fun mb => (mb.1.time_required, mb.1.compressed_size)) =
      [(2, 1000000), (4, 800000), (6, 600000), (8, 400000), (10, 300000)] := by
  decide

/-- Claim C7 refutation at a concrete input: on the duration-sorted noisy
measurement set [(1,10), (2,5), (3,7), (4,6)] the built hull carries the
sizes [10, 5, 6], which do not strictly decrease (the pre-hull filter drops
the (3,7) point but keeps (4,6), which is dominated by (2,5)). -/
theorem claim7_sizes_not_strictly_decreasing :
    (buildPolygonalChain noisyMetrics).map (fun mb => mb.1.compressed_size) =
      [10, 5, 6] ∧
    ¬ List.Pairwise (fun a b : ℕ => b < a)
      ((buildPolygonalChain noisyMetrics).map (fun mb => mb.1.compressed_size)) := by
  constructor
  · decide
  · decide

/-- Claim C10 refutation at a concrete input: for the single-measurement set
[(2s, 1000000)], the arc extraction of build_polygonal_chain pushes the one
hull point twice (the min-x and max-x points coincide), so the benefit
annotation visits an adjacent pair with equal durations: the duration
difference is 0 and the f64 division is 0/0 (NaN in the Rust code). -/
theorem claim10_single_measurement_degenerate :
    (buildPolygonalChain [⟨2, 1000000⟩]).map
      (fun mb => (mb.1.time_required, mb.1.compressed_size)) =
      [(2, 1000000), (2, 1000000)] ∧
    ¬ List.Pairwise (fun a b : AlgorithmMetrics × ℚ =>
        a.1.time_required < b.1.time_required)
      (buildPolygonalChain [⟨2, 1000000⟩]) := by
  constructor
  · decide
  · decide

/-- Claim C1 refutation at a concrete input: with a single workload whose
hull is [(2s, 1000000), (4s, 800000)], the first merge step computes its
benefit against previous_complessive_size = 0 and previous_complessive_time
= 0 instead of against the initial joint configuration, so the u64
subtraction 0 - 800000 wraps (it panics in debug builds) and the recorded
benefit is (2^64 - 800000) / 4 rather than the claimed
(1000000 - 800000) / (4 - 2) = 100000. -/
theorem claim1_first_step_benefit_diverges :
    (jointPlanOf [[⟨2, 1000000⟩, ⟨4, 800000⟩]]).map (fun cb => cb.2) =
      [0, ((2 ^ 64 - 800000 : ℕ) : ℚ) / 4] ∧
    ((2 ^ 64 - 800000 : ℕ) : ℚ) / 4 ≠
      ((1000000 : ℚ) - 800000) / ((4 : ℚ) - 2) := by
  constructor
  · decide
  · decide

/-- Claim C3 refutation at a concrete input (scenario E4): two workloads,
each with the reference measurement set; the final joint configuration uses
both (10s, 300000) points, for an aggregate duration of exactly 20s; the
query with total budget 20s returns none (infeasible) because the fallback
demands the last aggregate duration to be strictly below the budget, instead
of the per-document single plans the claim requires. -/
theorem claim3_exact_budget_infeasible :
    mixWithTotalTimeBudget (jointPlanOf [refMetrics, refMetrics]) 20 = none ∧
    aggregateTime ((jointPlanOf [refMetrics, refMetrics]).getLast (by decide)).1 = 20 := by
  constructor
  · decide
  · decide
